import Mathlib

/-!
Shallow embedding of the `twobit` Go package: the 2bit DNA codec
(`const.go`, `twobit.go`, the writer/`Pack`/`mapBlocks` file) and the
`GenomicInterval` service collaborator.

Bytes are modelled as `Nat` values (every byte produced by the code is
`< 256`), byte streams as `List Nat`, Go `string` sequence data as
`List Char`, Go `string` names (raw byte strings) as `List Nat`, and Go
`int` range arguments as `Int`.  Fallible operations return
`Except String`; a Go runtime panic (index out of range) is modelled as
an `Except.error` whose message starts with "panic".
-/

namespace Twobit

/-- `Block` from `twobit.go`: a run of Ns or of masked (lower-case) bases,
covering positions `[start, start+count)`. -/
structure Block where
  start : Nat
  count : Nat
deriving DecidableEq

/-- `Block.Length()` from `twobit.go`: `b.start + b.count`. -/
def Block.length (b : Block) : Nat := b.start + b.count

/-- `packedSize` from `twobit.go`: `(dnaSize + 3) >> 2`, the number of packed
bytes for a DNA sequence (4 bases per byte). -/
def packedSize (dnaSize : Nat) : Nat := (dnaSize + 3) / 4

/-- `SIG` from `const.go`. -/
def SIG : Nat := 0x1A412743

/-- `BYTES2NT` from `const.go`: 2-bit code to base character
(`0 → T, 1 → C, 2 → A, 3 → G`).  Callers always index with `base & 0x3`. -/
def BYTES2NT (b : Nat) : Char :=
  if b = 0 then 'T' else if b = 1 then 'C' else if b = 2 then 'A' else 'G'

/-- `NT2BYTES` as populated by `init()` in `twobit.go` (and used as a keyed
lookup with an ok-check by `Pack`): the ten supported base characters map to
their 2-bit codes (`N`,`T` → 0, `C` → 1, `A` → 2, `G` → 3, both cases);
every other byte is absent. -/
def NT2BYTES (c : Char) : Option Nat :=
  if c = 'N' ∨ c = 'n' ∨ c = 'T' ∨ c = 't' then some 0
  else if c = 'C' ∨ c = 'c' then some 1
  else if c = 'A' ∨ c = 'a' then some 2
  else if c = 'G' ∨ c = 'g' then some 3
  else none

/-- The lookup `NT2BYTES[s[idx]]` with its ok-check from `Pack`, returning
the Go error `Unsupported base: %c` when the byte is not a supported base. -/
def nt2code (c : Char) : Except String Nat :=
  match NT2BYTES c with
  | some v => .ok v
  | none => .error ("Unsupported base: " ++ toString c)

/-- One iteration of the byte-unpacking loop shared by `ReadRange` and
`Unpack`: a packed byte yields 4 base characters, most significant 2 bits
first (`buf[j] = BYTES2NT[int(base&0x3)]; base >>= 2` for `j = 3,2,1,0`). -/
def unpackByte (b : Nat) : List Char :=
  [BYTES2NT (b / 64 % 4), BYTES2NT (b / 16 % 4), BYTES2NT (b / 4 % 4), BYTES2NT (b % 4)]

/-- `Unpack` from `twobit.go`: decode every packed byte into 4 characters and
slice the decoded buffer to `[0:sz]`.  The Go slice expression
`dna.Bytes()[0:sz]` is only well-defined for `sz` within the decoded buffer;
beyond it the slice may exceed the buffer bounds, modelled as an error. -/
def Unpack (raw : List Nat) (sz : Nat) : Except String (List Char) :=
  let dna := raw.flatMap unpackByte
  if sz ≤ dna.length then .ok (dna.take sz) else .error "panic: slice bounds out of range"

/-- `Pack` from the writer file: 4 bases per byte, first base in bits 6-7
(`b <<= 2; b += val` four times per output byte), conceptually padding past
the end of the input with `'T'` (whose code, `NT2BYTES['T']`, is 0, so the
padded positions contribute nothing).  The first unsupported input byte
aborts with `Unsupported base: %c`.  Output length is `packedSize len`. -/
def Pack : List Char → Except String (List Nat)
  | [] => .ok []
  | [a] => do .ok [(← nt2code a) * 64]
  | [a, b] => do .ok [(← nt2code a) * 64 + (← nt2code b) * 16]
  | [a, b, c] => do .ok [(← nt2code a) * 64 + (← nt2code b) * 16 + (← nt2code c) * 4]
  | a :: b :: c :: d :: rest => do
      let byte := (← nt2code a) * 64 + (← nt2code b) * 16 + (← nt2code c) * 4 + (← nt2code d)
      let out ← Pack rest
      .ok (byte :: out)

/-- The unknown-base predicate closure passed to `mapBlocks` by
`Writer.Add`: `r == 'N' || r == 'n'`. -/
def isN (r : Char) : Bool := r == 'N' || r == 'n'

/-- The masked-base predicate closure passed to `mapBlocks` by
`Writer.Add`: `r >= 'a' && r <= 'z'`. -/
def isMasked (r : Char) : Bool := 'a' ≤ r && r ≤ 'z'

/-- The scanning loop of `mapBlocks`, with the remaining input as a list,
`i` the current index, and the Go locals `start`, `isLast` (did the previous
character match) and `blocks` as accumulator state.  On a fall edge the open
run `[start, i)` is appended; after the loop a still-open run is closed at
the final position. -/
def mapBlocksAux (p : Char → Bool) : List Char → Nat → Nat → Bool → List Block → List Block
  | [], i, start, isLast, blocks =>
      if isLast then blocks ++ [⟨start, i - start⟩] else blocks
  | c :: rest, i, start, isLast, blocks =>
      if p c then
        mapBlocksAux p rest (i + 1) (if isLast then start else i) true blocks
      else
        mapBlocksAux p rest (i + 1) start false
          (if isLast then blocks ++ [⟨start, i - start⟩] else blocks)

/-- `mapBlocks` from the writer file: maximal runs of characters satisfying
`check`, as `Block`s, via a single left-to-right scan. -/
def mapBlocks (seq : List Char) (check : Char → Bool) : List Block :=
  mapBlocksAux check seq 0 0 false []

/-- `seqRecord` from `twobit.go`: per-sequence metadata plus (for a writer)
the packed payload. -/
structure seqRecord where
  dnaSize : Nat
  nBlocks : List Block
  mBlocks : List Block
  reserved : Nat
  sequence : List Nat
deriving DecidableEq

/-- `seqRecord.size()`: bytes the record occupies in the file. -/
def seqRecord.size (rec : seqRecord) : Nat :=
  16 + 2 * 4 * rec.nBlocks.length + 2 * 4 * rec.mBlocks.length + rec.sequence.length

/-- The N-overlay inner loop of `ReadRange` (`twobit.go` lines 349-356): the
bound check was moved *before* the write ("moved this up because a few
situations caused a panic"), so the run is written from `idx` for at most
`cnt` positions, stopping as soon as `idx` reaches the end of `seq`. -/
def writeRunN (seq : List Char) (idx : Nat) : Nat → List Char
  | 0 => seq
  | n + 1 =>
      if seq.length ≤ idx then seq
      else writeRunN (seq.set idx 'N') (idx + 1) n

/-- ASCII lower-casing by `+ 32`, as in the masked overlay of `ReadRange`
(`seq[idx] = seq[idx] + 32`). -/
def lowerChar (c : Char) : Char := Char.ofNat (c.toNat + 32)

/-- The masked-overlay inner loop of `ReadRange` (`twobit.go` lines
369-376).  Unlike the N loop, the bound check here comes *after* the write
(`seq[idx] += 32; idx++; if idx >= len(seq) break`), so a first write at
`idx = len(seq)` is an index-out-of-range panic, modelled as an error. -/
def writeRunM (seq : List Char) (idx : Nat) : Nat → Except String (List Char)
  | 0 => .ok seq
  | n + 1 =>
      if h : idx < seq.length then
        let seq2 := seq.set idx (lowerChar (seq.get ⟨idx, h⟩))
        if seq2.length ≤ idx + 1 then .ok seq2
        else writeRunM seq2 (idx + 1) n
      else .error "panic: index out of range"

/-- The N-block overlay loop of `ReadRange`: skip blocks with
`b.Length() < start || b.start > end`; otherwise write `'N'` over the run,
clipping a negative `idx = b.start - start` to 0 and reducing the count by
the clipped amount (`cnt += idx`).  A non-positive count writes nothing. -/
def overlayN (seq : List Char) (s e : Nat) : List Block → List Char
  | [] => seq
  | b :: bs =>
      if b.length < s ∨ e < b.start then overlayN seq s e bs
      else
        let idx : Int := (b.start : Int) - (s : Int)
        let cnt : Int := if idx < 0 then (b.count : Int) + idx else (b.count : Int)
        let idx2 : Nat := idx.toNat
        overlayN (writeRunN seq idx2 cnt.toNat) s e bs

/-- The masked-block overlay loop of `ReadRange`: same skip and clip logic
as the N overlay, but adding 32 to each character, with the loop that checks
the bound only after writing (see `writeRunM`). -/
def overlayM (seq : List Char) (s e : Nat) : List Block → Except String (List Char)
  | [] => .ok seq
  | b :: bs =>
      if b.length < s ∨ e < b.start then overlayM seq s e bs
      else
        let idx : Int := (b.start : Int) - (s : Int)
        let cnt : Int := if idx < 0 then (b.count : Int) + idx else (b.count : Int)
        let idx2 : Nat := idx.toNat
        match writeRunM seq idx2 cnt.toNat with
        | .error msg => .error msg
        | .ok seq2 => overlayM seq2 s e bs

/-- The `start` clamp of `ReadRange`: `if start < 0 { start = 0 }`. -/
def clampStart (start : Int) : Int := if start < 0 then 0 else start

/-- The `end` clamp of `ReadRange`: `if end > bases { end = bases }` then
`if end == 0 || end < 0 { end = bases }`. -/
def clampEnd (bases endo : Int) : Int :=
  let e1 := if endo > bases then bases else endo
  if e1 = 0 ∨ e1 < 0 then bases else e1

/-- The post-clamp body of `ReadRange` on already-clamped `0 ≤ s < e ≤
dnaSize`: compute the packed span (`size`) and seek distance (`shift`),
read `size` bytes starting `shift` bytes after the record metadata (erroring
on a short read, as the chunked read loop does), unpack 4 characters per
byte, slice off the first `s % 4` characters keeping `e - s`, then run the
two overlays. -/
def readClamped (rec : seqRecord) (tail : List Nat) (s e : Nat) : Except String (List Char) :=
  let bases := e - s
  let shift := if 0 < s then (if s % 4 ≠ 0 then packedSize s - 1 else packedSize s) else 0
  let size := if 0 < s ∧ s % 4 ≠ 0 then packedSize bases + 1 else packedSize bases
  let raw := (tail.drop shift).take size
  if raw.length ≠ size then .error "Failed to read dna bytes"
  else
    let dna := raw.flatMap unpackByte
    let seq := (dna.drop (s % 4)).take bases
    overlayM (overlayN seq s e rec.nBlocks) s e rec.mBlocks

/-- `ReadRange` given the parsed record and the stream bytes that follow the
record metadata: clamp, reject `end <= start` with `Invalid range: %d-%d`,
then decode. -/
def readRangeWith (rec : seqRecord) (tail : List Nat) (start endo : Int) : Except String (List Char) :=
  let s1 := clampStart start
  let e1 := clampEnd (rec.dnaSize : Int) endo
  if e1 ≤ s1 then .error ("Invalid range: " ++ (toString s1 ++ "-" ++ toString e1))
  else readClamped rec tail s1.toNat e1.toNat

/-- `binary.ByteOrder`: the two byte orders of the header auto-detection. -/
inductive ByteOrder where
  | big : ByteOrder
  | little : ByteOrder
deriving DecidableEq

/-- `Uint32` of 4 byte values in the given byte order. -/
def u32of (bo : ByteOrder) (a b c d : Nat) : Nat :=
  match bo with
  | .big => a * 16777216 + b * 65536 + c * 256 + d
  | .little => d * 16777216 + c * 65536 + b * 256 + a

/-- `binary.LittleEndian.PutUint32`: the 4 little-endian bytes of `n`
(absorbing Go's `uint32(...)` truncation, since each byte is extracted
mod 256). -/
def le32 (n : Nat) : List Nat :=
  [n % 256, n / 256 % 256, n / 65536 % 256, n / 16777216 % 256]

/-- `binary.Read` of one `uint32` from the stream: 4 bytes in the detected
byte order, erroring on a short read. -/
def readU32 (bo : ByteOrder) : List Nat → Except String (Nat × List Nat)
  | a :: b :: c :: d :: rest => .ok (u32of bo a b c d, rest)
  | _ => .error "unexpected EOF"

/-- Reading `k` consecutive `uint32` values (the starts / sizes loops of
`parseBlockCoords`). -/
def readU32s (bo : ByteOrder) : List Nat → Nat → Except String (List Nat × List Nat)
  | t, 0 => .ok ([], t)
  | t, k + 1 => do
      let (v, t1) ← readU32 bo t
      let (vs, t2) ← readU32s bo t1 k
      .ok (v :: vs, t2)

/-- `parseHeader`: read 16 bytes; interpret the first 4 as big-endian and,
if they do not equal `SIG`, reinterpret as little-endian; the resulting
byte order governs the version (must be 0), count and reserved (must be 0)
fields.  Returns the byte order and the sequence count. -/
def parseHeader (stream : List Nat) : Except String (ByteOrder × Nat) :=
  match stream with
  | a0 :: a1 :: a2 :: a3 :: a4 :: a5 :: a6 :: a7 :: a8 :: a9 :: a10 :: a11 ::
      a12 :: a13 :: a14 :: a15 :: _ =>
    let bo := if u32of .big a0 a1 a2 a3 = SIG then ByteOrder.big else ByteOrder.little
    if u32of bo a0 a1 a2 a3 ≠ SIG then .error "Invalid sig. Not a 2bit file?"
    else if u32of bo a4 a5 a6 a7 ≠ 0 then .error "Unsupported version"
    else if u32of bo a12 a13 a14 a15 ≠ 0 then .error "Reserved != 0"
    else .ok (bo, u32of bo a8 a9 a10 a11)
  | _ => .error "Failed to read header"

/-- The loop of `parseIndex`: `count` entries, each a 1-byte name length,
that many raw name bytes, and a 4-byte offset. -/
def parseIndexAux (bo : ByteOrder) : List Nat → Nat → Except String (List (List Nat × Nat))
  | _, 0 => .ok []
  | [], _ + 1 => .error "Failed to read file index"
  | size :: t1, k + 1 =>
      if t1.length < size then .error "Failed to read file index"
      else do
        let (offset, t2) ← readU32 bo (t1.drop size)
        let rest ← parseIndexAux bo t2 k
        .ok ((t1.take size, offset) :: rest)

/-- Name lookup in the parsed index (`r.index[name]` with its ok-check). -/
def indexLookup (idx : List (List Nat × Nat)) (name : List Nat) : Option Nat :=
  match idx with
  | [] => none
  | (n, off) :: rest => if n = name then some off else indexLookup rest name

/-- `parseBlockCoords`: a 4-byte count `C`, then `C` starts, then `C` sizes,
zipped pairwise into Blocks in input order. -/
def parseBlockCoords (bo : ByteOrder) (t : List Nat) : Except String (List Block × List Nat) := do
  let (count, t1) ← readU32 bo t
  let (starts, t2) ← readU32s bo t1 count
  let (sizes, t3) ← readU32s bo t2 count
  .ok (List.zipWith (fun s c => Block.mk s c) starts sizes, t3)

/-- `Reader` (`twoBit`) after construction: the underlying stream, the
detected byte order, and the parsed name → offset index. -/
structure Reader where
  stream : List Nat
  bo : ByteOrder
  index : List (List Nat × Nat)
deriving DecidableEq

/-- `parseRecord` with coordinates: look the name up in the index, seek to
its absolute offset, read `dnaSize`, the two block tables and the reserved
word (which must be 0).  Returns the record (the reader never fills
`sequence`) and the stream bytes following the metadata. -/
def parseRecord (r : Reader) (name : List Nat) : Except String (seqRecord × List Nat) :=
  match indexLookup r.index name with
  | none => .error "Invalid sequence name"
  | some offset => do
      let t := r.stream.drop offset
      let (dnaSize, t1) ← readU32 r.bo t
      let (nb, t2) ← parseBlockCoords r.bo t1
      let (mb, t3) ← parseBlockCoords r.bo t2
      let (resv, t4) ← readU32 r.bo t3
      if resv ≠ 0 then .error "Invalid reserved"
      else .ok (⟨dnaSize, nb, mb, resv, []⟩, t4)

/-- `NewReader`: parse the header, then the index. -/
def NewReader (stream : List Nat) : Except String Reader := do
  let (bo, count) ← parseHeader stream
  let idx ← parseIndexAux bo (stream.drop 16) count
  .ok ⟨stream, bo, idx⟩

/-- `Reader.ReadRange`: parse the record for `name`, then decode the
requested range. -/
def Reader.ReadRange (r : Reader) (name : List Nat) (start endo : Int) :
    Except String (List Char) :=
  match parseRecord r name with
  | .error e => .error e
  | .ok (rec, tail) => readRangeWith rec tail start endo

/-- `Reader.Read`: the whole sequence, via `ReadRange(name, 0, 0)`. -/
def Reader.Read (r : Reader) (name : List Nat) : Except String (List Char) :=
  Reader.ReadRange r name 0 0

/-- `Writer`: the in-memory name → record mapping (Go's map modelled as an
association list). -/
def Writer := List (List Nat × seqRecord)

/-- `NewWriter`: the empty record map. -/
def NewWriter : Writer := []

/-- `w.records[name] = rec`: overwrite the record under `name`, or append a
new entry. -/
def setRecord : Writer → List Nat → seqRecord → Writer
  | [], name, rec => [(name, rec)]
  | (n, r) :: rest, name, rec =>
      if n = name then (name, rec) :: rest else (n, r) :: setRecord rest name rec

/-- `Writer.Add`: reject names over 255 bytes; compute `dnaSize`
(a `uint32`), the N-run and masked-run block tables via `mapBlocks`, and
the packed payload via `Pack`; store the record under `name`. -/
def Writer.Add (w : Writer) (name : List Nat) (seq : List Char) : Except String Writer :=
  if 255 < name.length then .error "Name string cannot be longer than 255 characters"
  else do
    let packed ← Pack seq
    .ok (setRecord w name
      ⟨seq.length % 4294967296, mapBlocks seq isN, mapBlocks seq isMasked, 0, packed⟩)

/-- One block table as `WriteTo` serialises it: count, all starts, then all
counts, each a little-endian `uint32`. -/
def blockTable (bs : List Block) : List Nat :=
  le32 bs.length ++ (bs.map (fun b => le32 b.start)).flatten ++
    (bs.map (fun b => le32 b.count)).flatten

/-- One record's on-disk bytes as `WriteTo` builds them: `dnaSize`, the N
block table, the masked block table, reserved 0, then the packed payload. -/
def recordBytes (rec : seqRecord) : List Nat :=
  le32 rec.dnaSize ++ blockTable rec.nBlocks ++ blockTable rec.mBlocks ++ le32 0 ++ rec.sequence

/-- The index section of `WriteTo`: per name a `uint8` length, the raw name
bytes and the record's absolute offset, offsets accumulating each record's
on-disk size. -/
def indexBytes : List (List Nat × seqRecord) → Nat → List Nat
  | [], _ => []
  | (name, rec) :: rest, offset =>
      (name.length % 256) :: name ++ le32 offset ++ indexBytes rest (offset + rec.size)

/-- `Writer.WriteTo`: the 16-byte little-endian header (signature,
version 0, record count, reserved 0), the index, then every record's bytes,
in the iteration order of the record map (modelled by the list order). -/
def WriteTo (records : Writer) : List Nat :=
  le32 SIG ++ le32 0 ++ le32 (List.length records) ++ le32 0 ++
    indexBytes records (16 + (records.map (fun r => 5 + r.1.length)).sum) ++
    (records.map (fun r => recordBytes r.2)).flatten

/-- `GenomicInterval` from the service collaborator: reject a blank
chromosome, prepend `"chr"` (bytes `[99,104,114]`) when missing, canonicalise
`"chrMT"` to `"chrM"`, return an empty result for `start == end` without
calling `ReadRange`, and otherwise delegate to `ReadRange`. -/
def GenomicInterval (r : Reader) (chr : List Nat) (start endo : Int) :
    Except String (List Char) :=
  if chr = [] then .error "GenomicInterval can't accept blank chromosome"
  else
    let chrName := if chr.take 3 = [99, 104, 114] then chr else [99, 104, 114] ++ chr
    let chrName := if chrName = [99, 104, 114, 77, 84] then [99, 104, 114, 77] else chrName
    if start = endo then .ok []
    else Reader.ReadRange r chrName start endo

/-- Membership of a position in some block of a list: position `j` lies in
`[b.start, b.start + b.count)` for a block `b` of `B`. -/
def covered (B : List Block) (j : Nat) : Prop :=
  ∃ b ∈ B, b.start ≤ j ∧ j < b.start + b.count

instance (B : List Block) (j : Nat) : Decidable (covered B j) := by
  unfold covered; infer_instance

/-- The normalisation `Unpack ∘ Pack` applies to a single supported base
character, following the claim's wording: upper-case it and render `N`/`n`
(and `T`/`t`) as `'T'`. -/
def upperTN (c : Char) : Char :=
  if c = 'A' ∨ c = 'a' then 'A'
  else if c = 'C' ∨ c = 'c' then 'C'
  else if c = 'G' ∨ c = 'g' then 'G'
  else 'T'

/-- The ten supported base characters. -/
def baseAlphabet : List Char := ['A', 'C', 'G', 'T', 'N', 'a', 'c', 'g', 't', 'n']

/-! ### Lemmas about `Pack` and `Unpack` -/

lemma NT2BYTES_eq_none_iff (c : Char) : NT2BYTES c = none ↔ c ∉ baseAlphabet := by
  unfold NT2BYTES baseAlphabet
  split_ifs with h1 h2 h3 h4 <;> simp_all <;> tauto

lemma nt2code_ok_of_mem {c : Char} (hc : c ∈ baseAlphabet) :
    ∃ v, nt2code c = .ok v ∧ v < 4 ∧ BYTES2NT v = upperTN c := by
  fin_cases hc <;> exact ⟨_, rfl, by decide, by decide⟩

lemma nt2code_error_iff (c : Char) (m : String) :
    nt2code c = .error m ↔ c ∉ baseAlphabet ∧ m = "Unsupported base: " ++ toString c := by
  unfold nt2code
  rcases h : NT2BYTES c with _ | v
  · rw [NT2BYTES_eq_none_iff] at h
    simp [h, eq_comm]
  · have := (NT2BYTES_eq_none_iff c).not
    simp only [h] at this
    simp at this
    simp [this]

lemma unpackByte_combine {va vb vc vd : Nat} (ha : va < 4) (hb : vb < 4)
    (hc : vc < 4) (hd : vd < 4) :
    unpackByte (va * 64 + vb * 16 + vc * 4 + vd) =
      [BYTES2NT va, BYTES2NT vb, BYTES2NT vc, BYTES2NT vd] := by
  have h1 : (va * 64 + vb * 16 + vc * 4 + vd) / 64 % 4 = va := by omega
  have h2 : (va * 64 + vb * 16 + vc * 4 + vd) / 16 % 4 = vb := by omega
  have h3 : (va * 64 + vb * 16 + vc * 4 + vd) / 4 % 4 = vc := by omega
  have h4 : (va * 64 + vb * 16 + vc * 4 + vd) % 4 = vd := by omega
  rw [unpackByte, h1, h2, h3, h4]

lemma length_flatMap_unpackByte (raw : List Nat) :
    (raw.flatMap unpackByte).length = 4 * raw.length := by
  induction raw with
  | nil => rfl
  | cons b bs ih => simp [unpackByte, ih]; omega

lemma zero_lt_four : (0 : Nat) < 4 := by decide

/-- Packing a fully supported sequence succeeds, yields `packedSize`
bytes, and unpacking those bytes gives the upper-cased, `N`-to-`T`
normalised sequence followed by up to 3 `'T'` padding characters. -/
lemma Pack_ok_of_valid (s : List Char) (hv : ∀ c ∈ s, c ∈ baseAlphabet) :
    ∃ bs, Pack s = .ok bs ∧ bs.length = packedSize s.length ∧
      bs.flatMap unpackByte =
        s.map upperTN ++ List.replicate ((4 - s.length % 4) % 4) 'T' := by
  induction s using Pack.induct with
  | case1 => exact ⟨[], rfl, rfl, rfl⟩
  | case2 a =>
      obtain ⟨va, hva, hlt, hbn⟩ := nt2code_ok_of_mem (hv a (by simp))
      have hu : unpackByte (va * 64) = [BYTES2NT va, 'T', 'T', 'T'] := by
        have h := unpackByte_combine hlt zero_lt_four zero_lt_four zero_lt_four
        simpa using h
      refine ⟨[va * 64], ?_, ?_, ?_⟩
      · simp only [Pack, hva]; rfl
      · simp [packedSize]
      · simp [hu, hbn, List.replicate]
  | case3 a b =>
      obtain ⟨va, hva, hlta, hbna⟩ := nt2code_ok_of_mem (hv a (by simp))
      obtain ⟨vb, hvb, hltb, hbnb⟩ := nt2code_ok_of_mem (hv b (by simp))
      have hu : unpackByte (va * 64 + vb * 16) = [BYTES2NT va, BYTES2NT vb, 'T', 'T'] := by
        have h := unpackByte_combine hlta hltb zero_lt_four zero_lt_four
        simpa using h
      refine ⟨[va * 64 + vb * 16], ?_, ?_, ?_⟩
      · simp only [Pack, hva, hvb]; rfl
      · simp [packedSize]
      · simp [hu, hbna, hbnb, List.replicate]
  | case4 a b c =>
      obtain ⟨va, hva, hlta, hbna⟩ := nt2code_ok_of_mem (hv a (by simp))
      obtain ⟨vb, hvb, hltb, hbnb⟩ := nt2code_ok_of_mem (hv b (by simp))
      obtain ⟨vc, hvc, hltc, hbnc⟩ := nt2code_ok_of_mem (hv c (by simp))
      have hu : unpackByte (va * 64 + vb * 16 + vc * 4) =
          [BYTES2NT va, BYTES2NT vb, BYTES2NT vc, 'T'] := by
        have h := unpackByte_combine hlta hltb hltc zero_lt_four
        simpa using h
      refine ⟨[va * 64 + vb * 16 + vc * 4], ?_, ?_, ?_⟩
      · simp only [Pack, hva, hvb, hvc]; rfl
      · simp [packedSize]
      · simp [hu, hbna, hbnb, hbnc, List.replicate]
  | case5 a b c d rest ih =>
      obtain ⟨va, hva, hlta, hbna⟩ := nt2code_ok_of_mem (hv a (by simp))
      obtain ⟨vb, hvb, hltb, hbnb⟩ := nt2code_ok_of_mem (hv b (by simp))
      obtain ⟨vc, hvc, hltc, hbnc⟩ := nt2code_ok_of_mem (hv c (by simp))
      obtain ⟨vd, hvd, hltd, hbnd⟩ := nt2code_ok_of_mem (hv d (by simp))
      obtain ⟨out, hout, hlen, hun⟩ := ih (fun x hx => hv x (by simp [hx]))
      refine ⟨(va * 64 + vb * 16 + vc * 4 + vd) :: out,
        by simp only [Pack, hva, hvb, hvc, hvd, hout]; rfl, ?_, ?_⟩
      · simp only [List.length_cons, hlen, packedSize]; omega
      · have hpad : (4 - (a :: b :: c :: d :: rest).length % 4) % 4 =
            (4 - rest.length % 4) % 4 := by simp; omega
        simp only [List.flatMap_cons, unpackByte_combine hlta hltb hltc hltd,
          hun, hbna, hbnb, hbnc, hbnd, hpad, List.map_cons]
        simp

lemma ok_bind {α β : Type} (v : α) (g : α → Except String β) :
    (Except.ok v >>= g) = g v := rfl

lemma error_bind {α β : Type} (emsg : String) (g : α → Except String β) :
    ((Except.error emsg : Except String α) >>= g) = Except.error emsg := rfl

lemma mem_of_nt2code_ok {c : Char} {v : Nat} (h : nt2code c = .ok v) :
    c ∈ baseAlphabet := by
  by_contra hmem
  have hn := (NT2BYTES_eq_none_iff c).mpr hmem
  unfold nt2code at h
  rw [hn] at h
  exact absurd h (by simp)

/-- If packing succeeds, every input character was a supported base. -/
lemma Pack_ok_valid (s : List Char) (bs : List Nat) (h : Pack s = .ok bs) :
    ∀ c ∈ s, c ∈ baseAlphabet := by
  induction s using Pack.induct generalizing bs with
  | case1 => simp
  | case2 a =>
      intro x hx
      simp only [Pack] at h
      rcases ha : nt2code a with m | va <;> rw [ha] at h
      · rw [error_bind] at h; exact absurd h (by simp)
      · simp only [List.mem_singleton] at hx
        exact hx ▸ mem_of_nt2code_ok ha
  | case3 a b =>
      intro x hx
      simp only [Pack] at h
      rcases ha : nt2code a with m | va <;> rw [ha] at h
      · rw [error_bind] at h; exact absurd h (by simp)
      rw [ok_bind] at h
      rcases hb : nt2code b with m | vb <;> rw [hb] at h
      · rw [error_bind] at h; exact absurd h (by simp)
      simp only [List.mem_cons, List.mem_singleton, List.not_mem_nil, or_false] at hx
      rcases hx with rfl | rfl
      · exact mem_of_nt2code_ok ha
      · exact mem_of_nt2code_ok hb
  | case4 a b c =>
      intro x hx
      simp only [Pack] at h
      rcases ha : nt2code a with m | va <;> rw [ha] at h
      · rw [error_bind] at h; exact absurd h (by simp)
      rw [ok_bind] at h
      rcases hb : nt2code b with m | vb <;> rw [hb] at h
      · rw [error_bind] at h; exact absurd h (by simp)
      rw [ok_bind] at h
      rcases hc : nt2code c with m | vc <;> rw [hc] at h
      · rw [error_bind] at h; exact absurd h (by simp)
      simp only [List.mem_cons, List.mem_singleton, List.not_mem_nil, or_false] at hx
      rcases hx with rfl | rfl | rfl
      · exact mem_of_nt2code_ok ha
      · exact mem_of_nt2code_ok hb
      · exact mem_of_nt2code_ok hc
  | case5 a b c d rest ih =>
      intro x hx
      simp only [Pack] at h
      rcases ha : nt2code a with m | va <;> rw [ha] at h
      · rw [error_bind] at h; exact absurd h (by simp)
      rw [ok_bind] at h
      rcases hb : nt2code b with m | vb <;> rw [hb] at h
      · rw [error_bind] at h; exact absurd h (by simp)
      rw [ok_bind] at h
      rcases hc : nt2code c with m | vc <;> rw [hc] at h
      · rw [error_bind] at h; exact absurd h (by simp)
      rw [ok_bind] at h
      rcases hd : nt2code d with m | vd <;> rw [hd] at h
      · rw [error_bind] at h; exact absurd h (by simp)
      rw [ok_bind] at h
      rcases hr : Pack rest with m | out <;> rw [hr] at h
      · rw [error_bind] at h; exact absurd h (by simp)
      simp only [List.mem_cons] at hx
      rcases hx with rfl | rfl | rfl | rfl | hx
      · exact mem_of_nt2code_ok ha
      · exact mem_of_nt2code_ok hb
      · exact mem_of_nt2code_ok hc
      · exact mem_of_nt2code_ok hd
      · exact ih out hr x hx

/-- A packing error is always `Unsupported base: %c` for some unsupported
character of the input. -/
lemma Pack_error_names (s : List Char) (m : String) (h : Pack s = .error m) :
    ∃ c ∈ s, c ∉ baseAlphabet ∧ m = "Unsupported base: " ++ toString c := by
  induction s using Pack.induct generalizing m with
  | case1 => exact absurd h (by simp [Pack])
  | case2 a =>
      simp only [Pack] at h
      rcases ha : nt2code a with m2 | va <;> rw [ha] at h
      · rw [error_bind] at h
        obtain ⟨hmem, hm⟩ := (nt2code_error_iff a m2).mp ha
        exact ⟨a, by simp, hmem, by injection h with h2; rw [← h2, hm]⟩
      · rw [ok_bind] at h; exact absurd h (by simp)
  | case3 a b =>
      simp only [Pack] at h
      rcases ha : nt2code a with m2 | va <;> rw [ha] at h
      · rw [error_bind] at h
        obtain ⟨hmem, hm⟩ := (nt2code_error_iff a m2).mp ha
        exact ⟨a, by simp, hmem, by injection h with h2; rw [← h2, hm]⟩
      rw [ok_bind] at h
      rcases hb : nt2code b with m2 | vb <;> rw [hb] at h
      · rw [error_bind] at h
        obtain ⟨hmem, hm⟩ := (nt2code_error_iff b m2).mp hb
        exact ⟨b, by simp, hmem, by injection h with h2; rw [← h2, hm]⟩
      · rw [ok_bind] at h; exact absurd h (by simp)
  | case4 a b c =>
      simp only [Pack] at h
      rcases ha : nt2code a with m2 | va <;> rw [ha] at h
      · rw [error_bind] at h
        obtain ⟨hmem, hm⟩ := (nt2code_error_iff a m2).mp ha
        exact ⟨a, by simp, hmem, by injection h with h2; rw [← h2, hm]⟩
      rw [ok_bind] at h
      rcases hb : nt2code b with m2 | vb <;> rw [hb] at h
      · rw [error_bind] at h
        obtain ⟨hmem, hm⟩ := (nt2code_error_iff b m2).mp hb
        exact ⟨b, by simp, hmem, by injection h with h2; rw [← h2, hm]⟩
      rw [ok_bind] at h
      rcases hc : nt2code c with m2 | vc <;> rw [hc] at h
      · rw [error_bind] at h
        obtain ⟨hmem, hm⟩ := (nt2code_error_iff c m2).mp hc
        exact ⟨c, by simp, hmem, by injection h with h2; rw [← h2, hm]⟩
      · rw [ok_bind] at h; exact absurd h (by simp)
  | case5 a b c d rest ih =>
      simp only [Pack] at h
      rcases ha : nt2code a with m2 | va <;> rw [ha] at h
      · rw [error_bind] at h
        obtain ⟨hmem, hm⟩ := (nt2code_error_iff a m2).mp ha
        exact ⟨a, by simp, hmem, by injection h with h2; rw [← h2, hm]⟩
      rw [ok_bind] at h
      rcases hb : nt2code b with m2 | vb <;> rw [hb] at h
      · rw [error_bind] at h
        obtain ⟨hmem, hm⟩ := (nt2code_error_iff b m2).mp hb
        exact ⟨b, by simp, hmem, by injection h with h2; rw [← h2, hm]⟩
      rw [ok_bind] at h
      rcases hc : nt2code c with m2 | vc <;> rw [hc] at h
      · rw [error_bind] at h
        obtain ⟨hmem, hm⟩ := (nt2code_error_iff c m2).mp hc
        exact ⟨c, by simp, hmem, by injection h with h2; rw [← h2, hm]⟩
      rw [ok_bind] at h
      rcases hd : nt2code d with m2 | vd <;> rw [hd] at h
      · rw [error_bind] at h
        obtain ⟨hmem, hm⟩ := (nt2code_error_iff d m2).mp hd
        exact ⟨d, by simp, hmem, by injection h with h2; rw [← h2, hm]⟩
      rw [ok_bind] at h
      rcases hr : Pack rest with m2 | out <;> rw [hr] at h
      · rw [error_bind] at h
        obtain ⟨x, hx, hmem, hm⟩ := ih m2 hr
        exact ⟨x, by simp [hx], hmem, by injection h with h2; rw [← h2, hm]⟩
      · rw [ok_bind] at h; exact absurd h (by simp)

/-- Packing a supported sequence is unchanged by appending the explicit
`'T'` padding that fills the final partial byte. -/
lemma Pack_padT (s : List Char) (hv : ∀ c ∈ s, c ∈ baseAlphabet) :
    Pack (s ++ List.replicate ((4 - s.length % 4) % 4) 'T') = Pack s := by
  induction s using Pack.induct with
  | case1 => rfl
  | case2 a =>
      obtain ⟨va, hva, _, _⟩ := nt2code_ok_of_mem (hv a (by simp))
      show Pack [a, 'T', 'T', 'T'] = Pack [a]
      simp only [Pack, hva, ok_bind, show nt2code 'T' = Except.ok 0 from rfl]
      norm_num
  | case3 a b =>
      obtain ⟨va, hva, _, _⟩ := nt2code_ok_of_mem (hv a (by simp))
      obtain ⟨vb, hvb, _, _⟩ := nt2code_ok_of_mem (hv b (by simp))
      show Pack [a, b, 'T', 'T'] = Pack [a, b]
      simp only [Pack, hva, hvb, ok_bind, show nt2code 'T' = Except.ok 0 from rfl]
      norm_num
  | case4 a b c =>
      obtain ⟨va, hva, _, _⟩ := nt2code_ok_of_mem (hv a (by simp))
      obtain ⟨vb, hvb, _, _⟩ := nt2code_ok_of_mem (hv b (by simp))
      obtain ⟨vc, hvc, _, _⟩ := nt2code_ok_of_mem (hv c (by simp))
      show Pack [a, b, c, 'T'] = Pack [a, b, c]
      simp only [Pack, hva, hvb, hvc, ok_bind, show nt2code 'T' = Except.ok 0 from rfl]
      norm_num
  | case5 a b c d rest ih =>
      have hv' : ∀ x ∈ rest, x ∈ baseAlphabet := fun x hx => hv x (by simp [hx])
      have hpad : (4 - (a :: b :: c :: d :: rest).length % 4) % 4 =
          (4 - rest.length % 4) % 4 := by simp; omega
      rw [hpad]
      show Pack (a :: b :: c :: d :: (rest ++ _)) = _
      simp only [Pack, ih hv']

/-! ### Claim theorems C2, C8, C10 -/

/-- C2: for every string over `{A,C,G,T,N,a,c,g,t,n}`, `Unpack (Pack s)
(len s)` succeeds and equals `s` with every character upper-cased and every
`N`/`n` (and `t`) rendered as upper-case `T` — packing alone discards case
and the N/T distinction. -/
theorem C2_pack_unpack_roundtrip (s : List Char) (hv : ∀ c ∈ s, c ∈ baseAlphabet) :
    ∃ bs, Pack s = .ok bs ∧ Unpack bs s.length = .ok (s.map upperTN) := by
  obtain ⟨bs, hok, hlen, hun⟩ := Pack_ok_of_valid s hv
  refine ⟨bs, hok, ?_⟩
  unfold Unpack
  have hl := length_flatMap_unpackByte bs
  have hsle : s.length ≤ (bs.flatMap unpackByte).length := by
    rw [hl, hlen]; unfold packedSize; omega
  rw [if_pos hsle, hun]
  have hml : s.length = (s.map upperTN).length := by simp
  rw [hml, List.take_left]

theorem C2_pack_unpack_roundtrip_witness :
    (∀ c ∈ ['a', 'N', 'n', 't', 'G'], c ∈ baseAlphabet) ∧
      ∃ bs, Pack ['a', 'N', 'n', 't', 'G'] = .ok bs ∧
        Unpack bs 5 = .ok ['A', 'T', 'T', 'T', 'G'] :=
  ⟨by decide, C2_pack_unpack_roundtrip ['a', 'N', 'n', 't', 'G'] (by decide)⟩

/-- C8: `Pack` fails (with an error naming the offending character) exactly
when the input has a character outside `{A,C,G,T,N}` in either case; on a
fully supported input it yields exactly `ceil(len/4)` bytes and is unchanged
by explicitly padding the final partial byte with `'T'`. -/
theorem C8_pack_validation (s : List Char) :
    ((∃ m, Pack s = .error m) ↔ ∃ c ∈ s, c ∉ baseAlphabet) ∧
      (∀ m, Pack s = .error m →
        ∃ c ∈ s, c ∉ baseAlphabet ∧ m = "Unsupported base: " ++ toString c) ∧
      ((∀ c ∈ s, c ∈ baseAlphabet) →
        ∃ bs, Pack s = .ok bs ∧ bs.length = (s.length + 3) / 4 ∧
          Pack (s ++ List.replicate ((4 - s.length % 4) % 4) 'T') = .ok bs) := by
  refine ⟨⟨?_, ?_⟩, ?_, ?_⟩
  · rintro ⟨m, hm⟩
    obtain ⟨c, hc, hmem, _⟩ := Pack_error_names s m hm
    exact ⟨c, hc, hmem⟩
  · rintro ⟨c, hc, hmem⟩
    rcases hp : Pack s with m | bs
    · exact ⟨m, rfl⟩
    · exact absurd (Pack_ok_valid s bs hp c hc) hmem
  · exact fun m hm => Pack_error_names s m hm
  · intro hv
    obtain ⟨bs, hok, hlen, _⟩ := Pack_ok_of_valid s hv
    exact ⟨bs, hok, by rw [hlen]; rfl, by rw [Pack_padT s hv, hok]⟩

theorem C8_pack_validation_witness :
    ((∃ c ∈ ['A', 'X'], c ∉ baseAlphabet) ∧
      (∃ c ∈ ['A', 'X'], c ∉ baseAlphabet ∧
        "Unsupported base: X" = "Unsupported base: " ++ toString c)) ∧
      ∃ bs, Pack ['A', 'C', 'G', 'T', 'a'] = .ok bs ∧ bs.length = (5 + 3) / 4 ∧
        Pack (['A', 'C', 'G', 'T', 'a'] ++ List.replicate ((4 - 5 % 4) % 4) 'T') = .ok bs :=
  ⟨⟨(C8_pack_validation ['A', 'X']).1.mp ⟨"Unsupported base: X", rfl⟩,
      (C8_pack_validation ['A', 'X']).2.1 "Unsupported base: X" rfl⟩,
    (C8_pack_validation ['A', 'C', 'G', 'T', 'a']).2.2 (by decide)⟩

/-- C10: for `sz` up to 4 characters per packed byte, `Unpack raw sz`
returns exactly `sz` characters, obtained by slicing the
`4 * len(raw)`-character decoded buffer to `[0:sz]`; `sz ≤ 4 * len(raw)` is
what makes the final slice well-defined. -/
theorem C10_unpack_size (raw : List Nat) (sz : Nat) (h : sz ≤ 4 * raw.length) :
    Unpack raw sz = .ok ((raw.flatMap unpackByte).take sz) ∧
      ((raw.flatMap unpackByte).take sz).length = sz ∧
      (raw.flatMap unpackByte).length = 4 * raw.length := by
  have hl := length_flatMap_unpackByte raw
  refine ⟨?_, ?_, hl⟩
  · unfold Unpack
    rw [if_pos (by omega)]
  · rw [List.length_take, hl]; omega

theorem C10_unpack_size_witness :
    2 ≤ 4 * [170].length ∧
      (Unpack [170] 2 = .ok (([170].flatMap unpackByte).take 2) ∧
        (([170].flatMap unpackByte).take 2).length = 2 ∧
        ([170].flatMap unpackByte).length = 4 * [170].length) :=
  ⟨by decide, C10_unpack_size [170] 2 (by decide)⟩

/-! ### The run structure produced by `mapBlocks` -/

/-- strict separation of two blocks: the first ends strictly before the
second starts (so the runs are ascending, non-overlapping, and not even
adjacent — as maximal runs must be). -/
def blockGap (a b : Block) : Prop := a.start + a.count < b.start

lemma covered_append (B1 B2 : List Block) (j : Nat) :
    covered (B1 ++ B2) j ↔ covered B1 j ∨ covered B2 j := by
  unfold covered
  constructor
  · rintro ⟨b, hb, hj⟩
    rcases List.mem_append.mp hb with h | h
    · exact Or.inl ⟨b, h, hj⟩
    · exact Or.inr ⟨b, h, hj⟩
  · rintro (⟨b, hb, hj⟩ | ⟨b, hb, hj⟩)
    · exact ⟨b, List.mem_append.mpr (Or.inl hb), hj⟩
    · exact ⟨b, List.mem_append.mpr (Or.inr hb), hj⟩

lemma covered_singleton (s0 c0 j : Nat) :
    covered [⟨s0, c0⟩] j ↔ s0 ≤ j ∧ j < s0 + c0 := by
  unfold covered; simp

lemma covered_nil (j : Nat) : ¬ covered [] j := by
  rintro ⟨b, hb, _⟩; exact absurd hb (List.not_mem_nil b)

lemma not_covered_of_ends_le (V : List Block) (i j : Nat)
    (hb : ∀ b ∈ V, b.start + b.count ≤ i) (hij : i ≤ j) : ¬ covered V j := by
  rintro ⟨b, hbV, _, hlt⟩
  have := hb b hbV
  omega

/-- The currently open run of the scan, as a (possibly empty) block list:
`[start, i)` when the previous character matched, nothing otherwise. -/
def openRun : Bool → Nat → Nat → List Block
  | true, start, i => [⟨start, i - start⟩]
  | false, _, _ => []

/-- The scan invariant of `mapBlocksAux`: the closed blocks plus the open
run cover exactly the matching positions of the processed prefix `pre`;
they are strictly separated, nonempty, and end within the prefix; closed
blocks end strictly before the cursor when no run is open; and there are at
most as many blocks as processed characters. -/
def scanInv (p : Char → Bool) (pre : List Char) (start : Nat) (isLast : Bool)
    (blocks : List Block) : Prop :=
  (∀ j c, pre[j]? = some c →
    (covered (blocks ++ openRun isLast start pre.length) j ↔ p c = true)) ∧
  List.Chain' blockGap (blocks ++ openRun isLast start pre.length) ∧
  (∀ b ∈ blocks ++ openRun isLast start pre.length,
    0 < b.count ∧ b.start + b.count ≤ pre.length) ∧
  (isLast = false → ∀ b ∈ blocks, b.start + b.count < pre.length) ∧
  (blocks ++ openRun isLast start pre.length).length ≤ pre.length

/-- What `mapBlocks` guarantees about its result on input `s`: a position
is covered iff its character matches; blocks are strictly separated (hence
ascending, non-overlapping, and maximal given the coverage property);
blocks are nonempty and end within the input; and there are at most
`s.length` of them. -/
def runsSpec (p : Char → Bool) (s : List Char) (B : List Block) : Prop :=
  (∀ j c, s[j]? = some c → (covered B j ↔ p c = true)) ∧
  List.Chain' blockGap B ∧
  (∀ b ∈ B, 0 < b.count ∧ b.start + b.count ≤ s.length) ∧
  B.length ≤ s.length

lemma getElem?_append_singleton_cases {pre : List Char} {ch c : Char} {j : Nat}
    (hj : (pre ++ [ch])[j]? = some c) :
    (j < pre.length ∧ pre[j]? = some c) ∨ (j = pre.length ∧ c = ch) := by
  rcases Nat.lt_trichotomy j pre.length with hlt | heq | hgt
  · exact Or.inl ⟨hlt, by rwa [List.getElem?_append_left hlt] at hj⟩
  · subst heq
    rw [List.getElem?_append_right (le_refl _)] at hj
    simp at hj
    exact Or.inr ⟨rfl, hj.symm⟩
  · exfalso
    rw [List.getElem?_eq_none (by simp; omega)] at hj
    exact absurd hj (by simp)

lemma mapBlocksAux_nil (p : Char → Bool) (i start : Nat) (isLast : Bool)
    (blocks : List Block) :
    mapBlocksAux p [] i start isLast blocks = blocks ++ openRun isLast start i := by
  cases isLast <;> simp [mapBlocksAux, openRun]

lemma mapBlocksAux_cons_match (p : Char → Bool) (ch : Char) (rest : List Char)
    (i start : Nat) (isLast : Bool) (blocks : List Block) (hp : p ch = true) :
    mapBlocksAux p (ch :: rest) i start isLast blocks =
      mapBlocksAux p rest (i + 1) (if isLast then start else i) true blocks := by
  simp [mapBlocksAux, hp]

lemma mapBlocksAux_cons_nomatch (p : Char → Bool) (ch : Char) (rest : List Char)
    (i start : Nat) (isLast : Bool) (blocks : List Block) (hp : p ch = false) :
    mapBlocksAux p (ch :: rest) i start isLast blocks =
      mapBlocksAux p rest (i + 1) start false (blocks ++ openRun isLast start i) := by
  cases isLast <;> simp [mapBlocksAux, hp, openRun]

lemma scanInv_match_true (p : Char → Bool) (pre : List Char) (ch : Char) (start : Nat)
    (blocks : List Block) (hp : p ch = true) (hinv : scanInv p pre start true blocks) :
    scanInv p (pre ++ [ch]) start true blocks := by
  obtain ⟨hcov, hchain, hbounds, _, hlen⟩ := hinv
  simp only [scanInv, openRun] at hcov hchain hbounds hlen ⊢
  simp only [List.length_append, List.length_cons, List.length_nil]
  have hopen : start < pre.length := by
    have h : 0 < pre.length - start := (hbounds ⟨start, pre.length - start⟩ (by simp)).1
    omega
  refine ⟨?_, ?_, ?_, ?_, ?_⟩
  · intro j c hj
    rcases getElem?_append_singleton_cases hj with ⟨hlt, hj'⟩ | ⟨heq, hc⟩
    · have hold := hcov j c hj'
      rw [covered_append, covered_singleton] at hold ⊢
      constructor
      · rintro (h | h)
        · exact hold.mp (Or.inl h)
        · exact hold.mp (Or.inr (by omega))
      · intro h
        rcases hold.mpr h with h2 | h2
        · exact Or.inl h2
        · exact Or.inr (by omega)
    · subst heq
      subst hc
      rw [covered_append, covered_singleton]
      exact ⟨fun _ => hp, fun _ => Or.inr (by omega)⟩
  · rw [List.chain'_append] at hchain ⊢
    refine ⟨hchain.1, List.chain'_singleton _, ?_⟩
    intro x hx y hy
    simp only [List.head?_cons, Option.mem_def, Option.some.injEq] at hy
    subst hy
    have h := hchain.2.2 x hx ⟨start, pre.length - start⟩ (by simp)
    unfold blockGap at h ⊢
    simpa using h
  · intro b hb
    rcases List.mem_append.mp hb with h | h
    · have := hbounds b (List.mem_append.mpr (Or.inl h))
      omega
    · simp only [List.mem_singleton] at h
      subst h
      constructor <;> simp <;> omega
  · intro h; exact absurd h (by simp)
  · rw [List.length_append] at hlen
    simp only [List.length_cons, List.length_nil] at hlen
    omega

lemma scanInv_match_false (p : Char → Bool) (pre : List Char) (ch : Char) (start : Nat)
    (blocks : List Block) (hp : p ch = true) (hinv : scanInv p pre start false blocks) :
    scanInv p (pre ++ [ch]) pre.length true blocks := by
  obtain ⟨hcov, hchain, hbounds, hlast, hlen⟩ := hinv
  simp only [scanInv, openRun, List.append_nil] at hcov hchain hbounds hlen ⊢
  simp only [List.length_append, List.length_cons, List.length_nil]
  have hlast' := hlast rfl
  refine ⟨?_, ?_, ?_, ?_, ?_⟩
  · intro j c hj
    rcases getElem?_append_singleton_cases hj with ⟨hlt, hj'⟩ | ⟨heq, hc⟩
    · have hold := hcov j c hj'
      rw [covered_append, covered_singleton]
      constructor
      · rintro (h | h)
        · exact hold.mp h
        · omega
      · intro h; exact Or.inl (hold.mpr h)
    · subst heq
      subst hc
      rw [covered_append, covered_singleton]
      exact ⟨fun _ => hp, fun _ => Or.inr (by omega)⟩
  · rw [List.chain'_append]
    refine ⟨hchain, List.chain'_singleton _, ?_⟩
    intro x hx y hy
    simp only [List.head?_cons, Option.mem_def, Option.some.injEq] at hy
    subst hy
    obtain ⟨hne, hxeq⟩ := List.mem_getLast?_eq_getLast hx
    have hxmem : x ∈ blocks := hxeq ▸ List.getLast_mem hne
    have h := hlast' x hxmem
    unfold blockGap
    simpa using h
  · intro b hb
    rcases List.mem_append.mp hb with h | h
    · have := hbounds b h
      omega
    · simp only [List.mem_singleton] at h
      subst h
      constructor <;> simp
  · intro h; exact absurd h (by simp)
  · have : blocks.length ≤ pre.length := by simpa using hlen
    simp
    omega

lemma scanInv_nomatch (p : Char → Bool) (pre : List Char) (ch : Char) (start : Nat)
    (isLast : Bool) (blocks : List Block) (hp : p ch = false)
    (hinv : scanInv p pre start isLast blocks) :
    scanInv p (pre ++ [ch]) start false (blocks ++ openRun isLast start pre.length) := by
  obtain ⟨hcov, hchain, hbounds, _, hlen⟩ := hinv
  simp only [scanInv, openRun, List.append_nil] at hcov hchain hbounds hlen ⊢
  simp only [List.length_append, List.length_cons, List.length_nil]
  refine ⟨?_, hchain, ?_, ?_, ?_⟩
  · intro j c hj
    rcases getElem?_append_singleton_cases hj with ⟨hlt, hj'⟩ | ⟨heq, hc⟩
    · exact hcov j c hj'
    · subst heq
      subst hc
      constructor
      · intro habs
        exact absurd habs (not_covered_of_ends_le _ pre.length pre.length
          (fun b hb => (hbounds b hb).2) (le_refl _))
      · intro habs; rw [hp] at habs; exact absurd habs (by simp)
  · intro b hb
    have := hbounds b hb
    omega
  · intro _ b hb
    have := hbounds b hb
    omega
  · rw [List.length_append] at hlen
    omega

lemma mapBlocksAux_inv (p : Char → Bool) :
    ∀ (rest pre : List Char) (start : Nat) (isLast : Bool) (blocks : List Block),
    scanInv p pre start isLast blocks →
    runsSpec p (pre ++ rest) (mapBlocksAux p rest pre.length start isLast blocks) := by
  intro rest
  induction rest with
  | nil =>
      intro pre start isLast blocks hinv
      obtain ⟨hcov, hchain, hbounds, _, hlen⟩ := hinv
      rw [mapBlocksAux_nil, List.append_nil]
      exact ⟨hcov, hchain, hbounds, hlen⟩
  | cons ch rest' ih =>
      intro pre start isLast blocks hinv
      have hassoc : pre ++ ch :: rest' = (pre ++ [ch]) ++ rest' := by simp
      have hplen : pre.length + 1 = (pre ++ [ch]).length := by simp
      by_cases hp : p ch
      · rw [mapBlocksAux_cons_match p ch rest' pre.length start isLast blocks hp,
          hassoc, hplen]
        cases isLast with
        | true =>
            rw [if_pos rfl]
            exact ih (pre ++ [ch]) start true blocks
              (scanInv_match_true p pre ch start blocks hp hinv)
        | false =>
            rw [if_neg (by simp)]
            exact ih (pre ++ [ch]) pre.length true blocks
              (scanInv_match_false p pre ch start blocks hp hinv)
      · have hp' : p ch = false := by simpa using hp
        rw [mapBlocksAux_cons_nomatch p ch rest' pre.length start isLast blocks hp',
          hassoc, hplen]
        exact ih (pre ++ [ch]) start false (blocks ++ openRun isLast start pre.length)
          (scanInv_nomatch p pre ch start isLast blocks hp' hinv)

/-- The central fact about `mapBlocks`: its output satisfies `runsSpec`. -/
lemma mapBlocks_runsSpec (s : List Char) (p : Char → Bool) :
    runsSpec p s (mapBlocks s p) := by
  have h0 : scanInv p [] 0 false [] := by
    refine ⟨?_, ?_, ?_, ?_, ?_⟩ <;> simp [openRun]
  have h := mapBlocksAux_inv p s [] 0 false [] h0
  simpa [mapBlocks] using h

/-- C9: `mapBlocks s p` is exactly the list of maximal runs of characters
of `s` satisfying `p`: a position of `s` is covered by some returned block
iff its character satisfies `p`; consecutive blocks are strictly separated
(`a.start + a.count < b.start`), hence ascending and non-overlapping; and
blocks are nonempty and end within the input (so a run still open at the
end of input was closed at the final position).  Together these properties
determine the maximal-run decomposition uniquely: every block is all-
matching, and the position just before a block's start and the position at
its end (when inside the input) are uncovered, hence non-matching. -/
theorem C9_mapBlocks_maximal_runs (s : List Char) (p : Char → Bool) :
    (∀ (j : Nat) (c : Char), s[j]? = some c → (covered (mapBlocks s p) j ↔ p c = true)) ∧
      List.Chain' blockGap (mapBlocks s p) ∧
      (∀ b ∈ mapBlocks s p, 0 < b.count ∧ b.start + b.count ≤ s.length) :=
  ⟨(mapBlocks_runsSpec s p).1, (mapBlocks_runsSpec s p).2.1, (mapBlocks_runsSpec s p).2.2.1⟩

theorem C9_mapBlocks_maximal_runs_witness :
    ['A', 'N', 'N'][1]? = some 'N' ∧
      (covered (mapBlocks ['A', 'N', 'N'] isN) 1 ↔ isN 'N' = true) ∧
      List.Chain' blockGap (mapBlocks ['A', 'N', 'N'] isN) :=
  ⟨by decide, (C9_mapBlocks_maximal_runs ['A', 'N', 'N'] isN).1 1 'N' (by decide),
    (C9_mapBlocks_maximal_runs ['A', 'N', 'N'] isN).2.1⟩

/-! ### Pointwise behaviour of the two overlays -/

lemma covered_cons (b : Block) (bs : List Block) (j : Nat) :
    covered (b :: bs) j ↔ (b.start ≤ j ∧ j < b.start + b.count) ∨ covered bs j := by
  unfold covered; simp

lemma writeRunN_length (n : Nat) : ∀ (seq : List Char) (idx : Nat),
    (writeRunN seq idx n).length = seq.length := by
  induction n with
  | zero => intro seq idx; rfl
  | succ n ih =>
      intro seq idx
      rw [writeRunN]
      by_cases h : seq.length ≤ idx
      · rw [if_pos h]
      · rw [if_neg h, ih]; simp

lemma writeRunN_getElem (n : Nat) : ∀ (seq : List Char) (idx j : Nat),
    (writeRunN seq idx n)[j]? =
      if idx ≤ j ∧ j < idx + n ∧ j < seq.length then some 'N' else seq[j]? := by
  induction n with
  | zero => intro seq idx j; rw [writeRunN, if_neg (by omega)]
  | succ n ih =>
      intro seq idx j
      rw [writeRunN]
      by_cases h : seq.length ≤ idx
      · rw [if_pos h, if_neg (by omega)]
      · rw [if_neg h, ih]
        have hlen : (seq.set idx 'N').length = seq.length := by simp
        rw [hlen]
        by_cases hcond : idx ≤ j ∧ j < idx + (n + 1) ∧ j < seq.length
        · rw [if_pos hcond]
          by_cases hj : idx = j
          · subst hj
            rw [if_neg (by omega), List.getElem?_set_eq_of_lt _ (by omega)]
          · rw [if_pos (by omega)]
        · rw [if_neg hcond, if_neg (by omega)]
          have hj : idx ≠ j := by
            intro hj
            exact hcond (by subst hj; refine ⟨le_refl _, by omega, by omega⟩)
          rw [List.getElem?_set_ne hj]

lemma overlayN_cons_skip (seq : List Char) (s e : Nat) (b : Block) (bs : List Block)
    (h : b.length < s ∨ e < b.start) :
    overlayN seq s e (b :: bs) = overlayN seq s e bs := by
  rw [overlayN, if_pos h]

lemma overlayN_cons_go (seq : List Char) (s e : Nat) (b : Block) (bs : List Block)
    (h : ¬(b.length < s ∨ e < b.start)) :
    overlayN seq s e (b :: bs) =
      overlayN (writeRunN seq ((b.start : Int) - (s : Int)).toNat
        ((if (b.start : Int) - (s : Int) < 0 then
            (b.count : Int) + ((b.start : Int) - (s : Int))
          else (b.count : Int)).toNat)) s e bs := by
  simp only [overlayN, if_neg h]

lemma overlayN_length (blocks : List Block) : ∀ (seq : List Char) (s e : Nat),
    (overlayN seq s e blocks).length = seq.length := by
  induction blocks with
  | nil => intro seq s e; rfl
  | cons b bs ih =>
      intro seq s e
      by_cases h : b.length < s ∨ e < b.start
      · rw [overlayN_cons_skip seq s e b bs h, ih]
      · rw [overlayN_cons_go seq s e b bs h, ih, writeRunN_length]

/-- Pointwise characterisation of the N overlay: with an output window of
exactly `e - s` characters, position `j` reads `'N'` exactly when the
absolute position `s + j` lies in some block, and is untouched otherwise. -/
lemma overlayN_getElem (blocks : List Block) : ∀ (seq : List Char) (s e : Nat),
    seq.length = e - s → s ≤ e → ∀ j, j < seq.length →
    (overlayN seq s e blocks)[j]? =
      if covered blocks (s + j) then some 'N' else seq[j]? := by
  induction blocks with
  | nil =>
      intro seq s e _ _ j _
      rw [if_neg (covered_nil (s + j))]
      rfl
  | cons b bs ih =>
      intro seq s e hlen hse j hj
      by_cases hskip : b.length < s ∨ e < b.start
      · rw [overlayN_cons_skip seq s e b bs hskip, ih seq s e hlen hse j hj]
        have hnb : ¬(b.start ≤ s + j ∧ s + j < b.start + b.count) := by
          unfold Block.length at hskip
          rcases hskip with h | h <;> omega
        have hiff : covered (b :: bs) (s + j) ↔ covered bs (s + j) := by
          rw [covered_cons]; tauto
        rw [if_congr hiff rfl rfl]
      · rw [overlayN_cons_go seq s e b bs hskip]
        have hwl := writeRunN_length
          ((if (b.start : Int) - (s : Int) < 0 then
              (b.count : Int) + ((b.start : Int) - (s : Int))
            else (b.count : Int)).toNat) seq ((b.start : Int) - (s : Int)).toNat
        rw [ih _ s e (by rw [hwl]; exact hlen) hse j (by rw [hwl]; exact hj)]
        rw [writeRunN_getElem]
        unfold Block.length at hskip
        push_neg at hskip
        have hcovb : (((b.start : Int) - (s : Int)).toNat ≤ j ∧
            j < ((b.start : Int) - (s : Int)).toNat +
              ((if (b.start : Int) - (s : Int) < 0 then
                  (b.count : Int) + ((b.start : Int) - (s : Int))
                else (b.count : Int)).toNat) ∧ j < seq.length) ↔
            (b.start ≤ s + j ∧ s + j < b.start + b.count) := by
          by_cases hneg : (b.start : Int) - (s : Int) < 0
          · rw [if_pos hneg]; omega
          · rw [if_neg hneg]; omega
        by_cases h1 : covered bs (s + j)
        · rw [if_pos h1, if_pos ((covered_cons b bs (s + j)).mpr (Or.inr h1))]
        · rw [if_neg h1]
          by_cases h2 : b.start ≤ s + j ∧ s + j < b.start + b.count
          · rw [if_pos (hcovb.mpr h2),
              if_pos ((covered_cons b bs (s + j)).mpr (Or.inl h2))]
          · rw [if_neg (fun hc => h2 (hcovb.mp hc)), if_neg (fun hc => by
              rcases (covered_cons b bs (s + j)).mp hc with h | h
              · exact h2 h
              · exact h1 h)]

lemma writeRunM_ok (n : Nat) : ∀ (seq : List Char) (idx : Nat),
    (n = 0 ∨ idx < seq.length) →
    ∃ res, writeRunM seq idx n = .ok res ∧ res.length = seq.length ∧
      ∀ j, res[j]? =
        if idx ≤ j ∧ j < idx + n ∧ j < seq.length
        then (seq[j]?).map lowerChar else seq[j]? := by
  induction n with
  | zero =>
      intro seq idx _
      exact ⟨seq, rfl, rfl, fun j => by rw [if_neg (by omega)]⟩
  | succ n ih =>
      intro seq idx h
      have hidx : idx < seq.length := by rcases h with h | h; omega; exact h
      rw [writeRunM, dif_pos hidx]
      have hl2 : (seq.set idx (lowerChar (seq.get ⟨idx, hidx⟩))).length = seq.length := by
        simp
      have hget : seq[idx]? = some (seq.get ⟨idx, hidx⟩) := by
        rw [List.getElem?_eq_getElem hidx]; rfl
      by_cases hend : (seq.set idx (lowerChar (seq.get ⟨idx, hidx⟩))).length ≤ idx + 1
      · rw [if_pos hend]
        refine ⟨_, rfl, hl2, ?_⟩
        intro j
        by_cases hj : idx = j
        · subst hj
          rw [if_pos ⟨le_refl _, by omega, hidx⟩,
            List.getElem?_set_eq_of_lt _ hidx, hget]
          rfl
        · rw [List.getElem?_set_ne hj, if_neg (by rw [hl2] at hend; omega)]
      · rw [if_neg hend]
        obtain ⟨res, hres, hrl, hrp⟩ :=
          ih (seq.set idx (lowerChar (seq.get ⟨idx, hidx⟩))) (idx + 1)
            (Or.inr (by omega))
        refine ⟨res, hres, by rw [hrl, hl2], ?_⟩
        intro j
        rw [hrp j, hl2]
        by_cases hj : idx = j
        · subst hj
          rw [if_neg (by omega), if_pos ⟨le_refl _, by omega, hidx⟩,
            List.getElem?_set_eq_of_lt _ hidx, hget]
          rfl
        · rw [List.getElem?_set_ne hj]
          by_cases hc : idx ≤ j ∧ j < idx + (n + 1) ∧ j < seq.length
          · rw [if_pos (by omega), if_pos hc]
          · rw [if_neg (by omega), if_neg hc]

lemma overlayM_cons_skip (seq : List Char) (s e : Nat) (b : Block) (bs : List Block)
    (h : b.length < s ∨ e < b.start) :
    overlayM seq s e (b :: bs) = overlayM seq s e bs := by
  rw [overlayM, if_pos h]

lemma overlayM_cons_go (seq : List Char) (s e : Nat) (b : Block) (bs : List Block)
    (h : ¬(b.length < s ∨ e < b.start)) :
    overlayM seq s e (b :: bs) =
      match writeRunM seq ((b.start : Int) - (s : Int)).toNat
          ((if (b.start : Int) - (s : Int) < 0 then
              (b.count : Int) + ((b.start : Int) - (s : Int))
            else (b.count : Int)).toNat) with
      | .error msg => .error msg
      | .ok seq2 => overlayM seq2 s e bs := by
  simp only [overlayM, if_neg h]

/-- Pointwise characterisation of the masked overlay over the whole
sequence (`s = 0`, `e = seq.length`), for a well-formed block table
(nonempty, in-bounds, pairwise disjoint blocks, as produced by
`mapBlocks`): it succeeds, and adds 32 to exactly the covered positions. -/
lemma overlayM_zero (blocks : List Block) : ∀ (seq : List Char),
    (∀ b ∈ blocks, 0 < b.count ∧ b.start + b.count ≤ seq.length) →
    List.Pairwise (fun a b => a.start + a.count ≤ b.start) blocks →
    ∃ res, overlayM seq 0 seq.length blocks = .ok res ∧ res.length = seq.length ∧
      ∀ j, res[j]? =
        if covered blocks j then (seq[j]?).map lowerChar else seq[j]? := by
  induction blocks with
  | nil =>
      intro seq _ _
      exact ⟨seq, rfl, rfl, fun j => by rw [if_neg (covered_nil j)]⟩
  | cons b bs ih =>
      intro seq hb hpw
      have hbb := hb b (by simp)
      have hskip : ¬(b.length < 0 ∨ seq.length < b.start) := by
        unfold Block.length
        push_neg
        exact ⟨by omega, by omega⟩
      rw [overlayM_cons_go seq 0 seq.length b bs hskip]
      have hidx : ((b.start : Int) - ((0 : Nat) : Int)).toNat = b.start := by
        simp
      have hcnt : ((if (b.start : Int) - ((0 : Nat) : Int) < 0 then
          (b.count : Int) + ((b.start : Int) - ((0 : Nat) : Int))
        else (b.count : Int)).toNat) = b.count := by
        rw [if_neg (by omega)]
        simp
      rw [hidx, hcnt]
      obtain ⟨mid, hmid, hml, hmp⟩ := writeRunM_ok b.count seq b.start (Or.inr (by omega))
      rw [hmid]
      obtain ⟨res, hres, hrl, hrp⟩ := ih mid
        (by intro b2 hb2; rw [hml]; exact hb b2 (by simp [hb2]))
        (List.Pairwise.of_cons hpw)
      rw [hml] at hres
      refine ⟨res, hres, by rw [hrl, hml], ?_⟩
      intro j
      rw [hrp j, hmp j]
      have hdisj : covered bs j → ¬(b.start ≤ j ∧ j < b.start + b.count) := by
        rintro ⟨b2, hb2, hs2, hl2⟩ ⟨h3, h4⟩
        have := (List.pairwise_cons.mp hpw).1 b2 hb2
        omega
      by_cases h1 : covered bs j
      · rw [if_pos h1, if_pos ((covered_cons b bs j).mpr (Or.inr h1)),
          if_neg (by intro hc; exact hdisj h1 ⟨hc.1, hc.2.1⟩)]
      · rw [if_neg h1]
        by_cases h2 : b.start ≤ j ∧ j < b.start + b.count
        · rw [if_pos ⟨h2.1, h2.2, by omega⟩,
            if_pos ((covered_cons b bs j).mpr (Or.inl h2))]
        · rw [if_neg (by intro hc; exact h2 ⟨hc.1, hc.2.1⟩), if_neg (fun hc => by
            rcases (covered_cons b bs j).mp hc with h | h
            · exact h2 h
            · exact h1 h)]

/-! ### Claim theorems C3, C4, C5 -/

/-- The packed-window read of the spec's words (§4.4 steps 4-7), used as
the comparison target for C3: seek `ceil(start/4)` bytes minus one exactly
when `start mod 4 != 0`; read `ceil((end-start)/4)` bytes plus one exactly
in the same case; unpack 4 characters per byte; drop `start mod 4`
characters and keep exactly `end - start`. -/
def specReadWindow (rec : seqRecord) (tail : List Nat) (s e : Nat) :
    Except String (List Char) :=
  let pad : Nat := if s % 4 = 0 then 0 else 1
  let shift := (s + 3) / 4 - pad
  let span := (e - s + 3) / 4 + pad
  let raw := (tail.drop shift).take span
  if raw.length ≠ span then .error "Failed to read dna bytes"
  else
    overlayM (overlayN (((raw.flatMap unpackByte).drop (s % 4)).take (e - s)) s e
      rec.nBlocks) s e rec.mBlocks

/-- C3: for a clamped range with `start > 0`, `ReadRange` seeks forward by
`ceil(start/4)` bytes from the position just after the record metadata,
decreased by one byte exactly when `start % 4 != 0`; reads a packed span of
`ceil((end-start)/4)` bytes, increased by one byte exactly in the same
case; unpacks each byte into 4 characters; and returns the unpacked buffer
with the first `start % 4` characters discarded and exactly `end - start`
characters kept (then overlaid) — i.e. it agrees with `specReadWindow`. -/
theorem C3_seek_span_arithmetic (rec : seqRecord) (tail : List Nat) (s e : Nat)
    (h0 : 0 < s) (h1 : s < e) (h2 : e ≤ rec.dnaSize) :
    readRangeWith rec tail (s : Int) (e : Int) = specReadWindow rec tail s e := by
  have hcs : clampStart (s : Int) = (s : Int) := by
    unfold clampStart; split_ifs <;> omega
  have hce : clampEnd (rec.dnaSize : Int) (e : Int) = (e : Int) := by
    unfold clampEnd; simp only; split_ifs <;> omega
  unfold readRangeWith
  rw [hcs, hce, if_neg (by omega)]
  simp only [Int.toNat_natCast]
  unfold readClamped specReadWindow
  simp only
  have hshift : (if 0 < s then (if s % 4 ≠ 0 then packedSize s - 1 else packedSize s) else 0) =
      (s + 3) / 4 - (if s % 4 = 0 then 0 else 1) := by
    unfold packedSize; split_ifs <;> omega
  have hsize : (if 0 < s ∧ s % 4 ≠ 0 then packedSize (e - s) + 1 else packedSize (e - s)) =
      (e - s + 3) / 4 + (if s % 4 = 0 then 0 else 1) := by
    unfold packedSize; split_ifs <;> omega
  rw [hshift, hsize]

theorem C3_seek_span_arithmetic_witness :
    (0 < 1 ∧ 1 < 4 ∧ 4 ≤ 6) ∧
      readRangeWith ⟨6, [], [], 0, [156, 144]⟩ [156, 144] ((1 : Nat) : Int)
          ((4 : Nat) : Int) =
        specReadWindow ⟨6, [], [], 0, [156, 144]⟩ [156, 144] 1 4 ∧
      specReadWindow ⟨6, [], [], 0, [156, 144]⟩ [156, 144] 1 4 = .ok ['C', 'G', 'T'] :=
  ⟨by decide,
    C3_seek_span_arithmetic ⟨6, [], [], 0, [156, 144]⟩ [156, 144] 1 4
      (by decide) (by decide) (by decide), by rfl⟩

/-- C4: the unknown-base overlay of `ReadRange` writes `'N'` at exactly the
window positions whose absolute position lies in some N block (the local
index being the block start minus the window start, clipped at 0 with the
run length reduced by the clipped amount, stopping at the end of the
output), and touches no other position; in particular, with
`nBlocks = [{start := 2, count := 3}]` over a 10-base all-`A` record,
reading `[0,10)` yields `AANNNAAAAA` and reading `[3,6)` yields `NNA`. -/
theorem C4_n_overlay (blocks : List Block) (seq : List Char) (s e j : Nat)
    (h1 : seq.length = e - s) (h2 : s ≤ e) (hj : j < seq.length) :
    ((overlayN seq s e blocks)[j]? =
      if covered blocks (s + j) then some 'N' else seq[j]?) ∧
      readRangeWith ⟨10, [⟨2, 3⟩], [], 0, []⟩ [170, 170, 170] 0 10 =
        .ok ['A', 'A', 'N', 'N', 'N', 'A', 'A', 'A', 'A', 'A'] ∧
      readRangeWith ⟨10, [⟨2, 3⟩], [], 0, []⟩ [170, 170, 170] 3 6 =
        .ok ['N', 'N', 'A'] :=
  ⟨overlayN_getElem blocks seq s e h1 h2 j hj, by rfl, by rfl⟩

theorem C4_n_overlay_witness :
    ((['A', 'A'].length = 2 - 0 ∧ 0 ≤ 2 ∧ 0 < ['A', 'A'].length) ∧
      (overlayN ['A', 'A'] 0 2 [⟨0, 1⟩])[0]? =
        if covered [⟨0, 1⟩] (0 + 0) then some 'N' else ['A', 'A'][0]?) ∧
      readRangeWith ⟨10, [⟨2, 3⟩], [], 0, []⟩ [170, 170, 170] 3 6 =
        .ok ['N', 'N', 'A'] :=
  ⟨⟨by decide, (C4_n_overlay [⟨0, 1⟩] ['A', 'A'] 0 2 0 (by decide) (by decide)
      (by decide)).1⟩,
    (C4_n_overlay [⟨0, 1⟩] ['A', 'A'] 0 2 0 (by decide) (by decide) (by decide)).2.2⟩

/-- C5 (code bug): the masked overlay checks the buffer bound only *after*
writing, so a masked block beginning exactly at the clamped `end` makes the
first write land at index `len(seq)` — an index-out-of-range panic — while
the claim (and the N overlay, whose check was moved before the write) stays
inside the buffer.  Concretely, a 5-base record for `"AAAAa"`
(`mBlocks = [{start := 4, count := 1}]`) panics on `ReadRange(name, 0, 4)`
even though reading the whole sequence works. -/
theorem C5_masked_overlay_out_of_range :
    readRangeWith ⟨5, [], [⟨4, 1⟩], 0, []⟩ [170, 128] 0 4 =
        .error "panic: index out of range" ∧
      readRangeWith ⟨5, [], [⟨4, 1⟩], 0, []⟩ [170, 128] 0 5 =
        .ok ['A', 'A', 'A', 'A', 'a'] :=
  ⟨by rfl, by rfl⟩

/-! ### Claim theorems C6, C7 -/

lemma ReadRange_eq (r : Reader) (name : List Nat) (rec : seqRecord) (tail : List Nat)
    (start endo : Int) (hpr : parseRecord r name = .ok (rec, tail)) :
    Reader.ReadRange r name start endo = readRangeWith rec tail start endo := by
  unfold Reader.ReadRange
  rw [hpr]

/-- C6: `ReadRange` clamps its range: a negative `start` behaves as 0; an
`end` beyond `dnaSize` behaves as `dnaSize`; a non-positive `end` behaves
as `dnaSize`. -/
theorem C6_range_clamping (r : Reader) (name : List Nat) (rec : seqRecord)
    (tail : List Nat) (start endo1 endo2 endo3 k : Int)
    (hpr : parseRecord r name = .ok (rec, tail)) :
    (start < 0 →
      Reader.ReadRange r name start endo1 = Reader.ReadRange r name 0 endo1) ∧
      (endo2 > (rec.dnaSize : Int) →
        Reader.ReadRange r name k endo2 = Reader.ReadRange r name k (rec.dnaSize : Int)) ∧
      (endo3 ≤ 0 →
        Reader.ReadRange r name k endo3 = Reader.ReadRange r name k (rec.dnaSize : Int)) := by
  refine ⟨?_, ?_, ?_⟩
  · intro h
    rw [ReadRange_eq r name rec tail start endo1 hpr,
      ReadRange_eq r name rec tail 0 endo1 hpr]
    unfold readRangeWith
    have h1 : clampStart start = clampStart 0 := by
      unfold clampStart
      rw [if_pos h, if_neg (by omega)]
    rw [h1]
  · intro h
    rw [ReadRange_eq r name rec tail k endo2 hpr,
      ReadRange_eq r name rec tail k (rec.dnaSize : Int) hpr]
    unfold readRangeWith
    have h1 : clampEnd (rec.dnaSize : Int) endo2 = clampEnd (rec.dnaSize : Int) (rec.dnaSize : Int) := by
      unfold clampEnd
      simp only
      split_ifs <;> omega
    rw [h1]
  · intro h
    rw [ReadRange_eq r name rec tail k endo3 hpr,
      ReadRange_eq r name rec tail k (rec.dnaSize : Int) hpr]
    unfold readRangeWith
    have h1 : clampEnd (rec.dnaSize : Int) endo3 = clampEnd (rec.dnaSize : Int) (rec.dnaSize : Int) := by
      unfold clampEnd
      simp only
      split_ifs <;> omega
    rw [h1]

/-- A tiny concrete record (6 bases `ACGTAC`, no blocks) and a Reader whose
index points straight at its serialised bytes, for witnesses. -/
def sampleRec : seqRecord := ⟨6, [], [], 0, [156, 144]⟩

/-- A concrete in-memory Reader over `sampleRec`. -/
def sampleReader : Reader := ⟨recordBytes sampleRec, .little, [([97], 0)]⟩

theorem C6_range_clamping_witness :
    parseRecord sampleReader [97] = .ok (⟨6, [], [], 0, []⟩, [156, 144]) ∧
      ((-10 : Int) < 0 ∧
        Reader.ReadRange sampleReader [97] (-10) 3 = Reader.ReadRange sampleReader [97] 0 3) ∧
      ((100 : Int) > ((6 : Nat) : Int) ∧
        Reader.ReadRange sampleReader [97] 1 100 = Reader.ReadRange sampleReader [97] 1 ((6 : Nat) : Int)) ∧
      ((-3 : Int) ≤ 0 ∧
        Reader.ReadRange sampleReader [97] 1 (-3) = Reader.ReadRange sampleReader [97] 1 ((6 : Nat) : Int)) := by
  have hpr : parseRecord sampleReader [97] = .ok (⟨6, [], [], 0, []⟩, [156, 144]) := by rfl
  have h := C6_range_clamping sampleReader [97] ⟨6, [], [], 0, []⟩ [156, 144]
    (-10) 3 100 (-3) 1 hpr
  exact ⟨hpr, ⟨by decide, h.1 (by decide)⟩, ⟨by decide, h.2.1 (by decide)⟩,
    ⟨by decide, h.2.2 (by decide)⟩⟩

/-- C7: once the clamped `end` is at most the clamped `start`, `ReadRange`
fails with the `Invalid range` error and returns no sequence — in
particular `ReadRange(name, 5, 5)` always fails — while the collaborator
`GenomicInterval` special-cases `start == end` to an empty string with no
error before ever calling `ReadRange`. -/
theorem C7_degenerate_range (r : Reader) (name : List Nat) (rec : seqRecord)
    (tail : List Nat) (start endo k : Int) (chr : List Nat)
    (hpr : parseRecord r name = .ok (rec, tail)) :
    (clampEnd (rec.dnaSize : Int) endo ≤ clampStart start →
      ∃ m, Reader.ReadRange r name start endo = .error ("Invalid range: " ++ m)) ∧
      (∃ m, Reader.ReadRange r name 5 5 = .error ("Invalid range: " ++ m)) ∧
      (chr ≠ [] → GenomicInterval r chr k k = .ok []) := by
  have hgen : ∀ st en : Int, clampEnd (rec.dnaSize : Int) en ≤ clampStart st →
      ∃ m, Reader.ReadRange r name st en = .error ("Invalid range: " ++ m) := by
    intro st en h
    rw [ReadRange_eq r name rec tail st en hpr]
    unfold readRangeWith
    rw [if_pos h]
    exact ⟨_, rfl⟩
  refine ⟨hgen start endo, ?_, ?_⟩
  · refine hgen 5 5 ?_
    unfold clampEnd clampStart
    simp only
    split_ifs <;> omega
  · intro hchr
    simp [GenomicInterval, hchr]

theorem C7_degenerate_range_witness :
    parseRecord sampleReader [97] = .ok (⟨6, [], [], 0, []⟩, [156, 144]) ∧
      (clampEnd ((6 : Nat) : Int) 3 ≤ clampStart 5 ∧
        (∃ m, Reader.ReadRange sampleReader [97] 5 3 = .error ("Invalid range: " ++ m))) ∧
      (∃ m, Reader.ReadRange sampleReader [97] 5 5 = .error ("Invalid range: " ++ m)) ∧
      ([99] ≠ ([] : List Nat) ∧ GenomicInterval sampleReader [99] 7 7 = .ok []) := by
  have hpr : parseRecord sampleReader [97] = .ok (⟨6, [], [], 0, []⟩, [156, 144]) := by rfl
  have h := C7_degenerate_range sampleReader [97] ⟨6, [], [], 0, []⟩ [156, 144]
    5 3 7 [99] hpr
  exact ⟨hpr, ⟨by decide, h.1 (by decide)⟩, h.2.1, ⟨by decide, h.2.2 (by decide)⟩⟩

/-! ### Serialisation / parsing round-trip lemmas for the full cycle -/

lemma readU32_le32 (n : Nat) (t : List Nat) (h : n < 4294967296) :
    readU32 .little (le32 n ++ t) = .ok (n, t) := by
  show readU32 .little
    ((n % 256) :: (n / 256 % 256) :: (n / 65536 % 256) :: (n / 16777216 % 256) :: t) =
    .ok (n, t)
  rw [readU32]
  have hv : u32of ByteOrder.little (n % 256) (n / 256 % 256) (n / 65536 % 256)
      (n / 16777216 % 256) = n := by
    show n / 16777216 % 256 * 16777216 + n / 65536 % 256 * 65536 +
      n / 256 % 256 * 256 + n % 256 = n
    omega
  rw [hv]

lemma readU32s_le32 (xs : List Nat) (t : List Nat) (h : ∀ x ∈ xs, x < 4294967296) :
    readU32s .little ((xs.map le32).flatten ++ t) xs.length = .ok (xs, t) := by
  induction xs with
  | nil => rfl
  | cons x rest ih =>
      show readU32s .little (le32 x ++ ((rest.map le32).flatten ++ t)) (rest.length + 1) =
        .ok (x :: rest, t)
      rw [readU32s]
      simp only [readU32_le32 x _ (h x (by simp)),
        ih (fun y hy => h y (by simp [hy])), ok_bind]

lemma zipWith_start_count (bs : List Block) :
    List.zipWith (fun s c => Block.mk s c) (bs.map (fun b => b.start))
      (bs.map (fun b => b.count)) = bs := by
  induction bs with
  | nil => rfl
  | cons b rest ih => cases b; simp [ih]

lemma parseBlockCoords_blockTable (bs : List Block) (t : List Nat)
    (hf : ∀ b ∈ bs, b.start < 4294967296 ∧ b.count < 4294967296)
    (hl : bs.length < 4294967296) :
    parseBlockCoords .little (blockTable bs ++ t) = .ok (bs, t) := by
  have hms : (bs.map (fun b => le32 b.start)).flatten =
      ((bs.map (fun b => b.start)).map le32).flatten := by rw [List.map_map]; rfl
  have hmc : (bs.map (fun b => le32 b.count)).flatten =
      ((bs.map (fun b => b.count)).map le32).flatten := by rw [List.map_map]; rfl
  have h1 : readU32 ByteOrder.little (blockTable bs ++ t) =
      .ok (bs.length, (bs.map (fun b => le32 b.start)).flatten ++
        ((bs.map (fun b => le32 b.count)).flatten ++ t)) := by
    unfold blockTable
    rw [List.append_assoc, List.append_assoc, readU32_le32 bs.length _ hl]
  have h2 : readU32s ByteOrder.little ((bs.map (fun b => le32 b.start)).flatten ++
      ((bs.map (fun b => le32 b.count)).flatten ++ t)) bs.length =
      .ok (bs.map (fun b => b.start), (bs.map (fun b => le32 b.count)).flatten ++ t) := by
    rw [hms, show bs.length = (bs.map (fun b => b.start)).length by simp]
    exact readU32s_le32 (bs.map (fun b => b.start)) _
      (by intro x hx; simp at hx; obtain ⟨b, hb, rfl⟩ := hx; exact (hf b hb).1)
  have h3 : readU32s ByteOrder.little ((bs.map (fun b => le32 b.count)).flatten ++ t)
      bs.length = .ok (bs.map (fun b => b.count), t) := by
    rw [hmc, show bs.length = (bs.map (fun b => b.count)).length by simp]
    exact readU32s_le32 (bs.map (fun b => b.count)) _
      (by intro x hx; simp at hx; obtain ⟨b, hb, rfl⟩ := hx; exact (hf b hb).2)
  unfold parseBlockCoords
  simp only [h1, ok_bind, h2, h3, zipWith_start_count]

lemma WriteTo_single (name : List Nat) (rec : seqRecord) :
    WriteTo [(name, rec)] =
      le32 SIG ++ le32 0 ++ le32 1 ++ le32 0 ++
        ((name.length % 256) :: name ++ le32 (16 + (5 + name.length)) ++ recordBytes rec) := by
  unfold WriteTo
  simp [indexBytes]

lemma parseHeader_written (X : List Nat) :
    parseHeader (le32 SIG ++ le32 0 ++ le32 1 ++ le32 0 ++ X) = .ok (.little, 1) := rfl

lemma drop16_written (X : List Nat) :
    (le32 SIG ++ le32 0 ++ le32 1 ++ le32 0 ++ X).drop 16 = X := rfl

lemma parseIndexAux_cons_succ (bo : ByteOrder) (size : Nat) (t1 : List Nat) (k : Nat) :
    parseIndexAux bo (size :: t1) (k + 1) =
      (if t1.length < size then .error "Failed to read file index"
       else do
         let (offset, t2) ← readU32 bo (t1.drop size)
         let rest ← parseIndexAux bo t2 k
         .ok ((t1.take size, offset) :: rest)) := by
  rw [parseIndexAux.eq_def]

lemma parseIndexAux_single (name : List Nat) (off : Nat) (rest : List Nat)
    (hn : name.length ≤ 255) (hoff : off < 4294967296) :
    parseIndexAux .little ((name.length % 256) :: name ++ le32 off ++ rest) 1 =
      .ok [(name, off)] := by
  have hsz : name.length % 256 = name.length := Nat.mod_eq_of_lt (by omega)
  simp only [List.cons_append]
  rw [show (1 : Nat) = 0 + 1 from rfl, parseIndexAux_cons_succ, hsz,
    if_neg (by simp only [le32, List.length_append, List.length_cons, List.length_nil]; omega),
    List.append_assoc, List.take_left' rfl, List.drop_left' rfl,
    readU32_le32 off _ hoff, ok_bind]
  simp only [parseIndexAux.eq_1, ok_bind]

lemma NewReader_written (name : List Nat) (rec : seqRecord) (hn : name.length ≤ 255) :
    NewReader (WriteTo [(name, rec)]) =
      .ok ⟨WriteTo [(name, rec)], .little, [(name, 16 + (5 + name.length))]⟩ := by
  unfold NewReader
  rw [WriteTo_single name rec]
  simp only [parseHeader_written, ok_bind, drop16_written,
    parseIndexAux_single name (16 + (5 + name.length)) (recordBytes rec) hn (by omega),
    ok_bind]

lemma parseRecord_written (name : List Nat) (rec : seqRecord) (hn : name.length ≤ 255)
    (hd : rec.dnaSize < 4294967296)
    (hnb : ∀ b ∈ rec.nBlocks, b.start < 4294967296 ∧ b.count < 4294967296)
    (hnl : rec.nBlocks.length < 4294967296)
    (hmb : ∀ b ∈ rec.mBlocks, b.start < 4294967296 ∧ b.count < 4294967296)
    (hml : rec.mBlocks.length < 4294967296) :
    parseRecord ⟨WriteTo [(name, rec)], .little, [(name, 16 + (5 + name.length))]⟩ name =
      .ok (⟨rec.dnaSize, rec.nBlocks, rec.mBlocks, 0, []⟩, rec.sequence) := by
  have hlk : indexLookup [(name, 16 + (5 + name.length))] name =
      some (16 + (5 + name.length)) := by
    unfold indexLookup
    rw [if_pos rfl]
  have hdrop : (WriteTo [(name, rec)]).drop (16 + (5 + name.length)) = recordBytes rec := by
    rw [WriteTo_single name rec]
    rw [show le32 SIG ++ le32 0 ++ le32 1 ++ le32 0 ++
        ((name.length % 256) :: name ++ le32 (16 + (5 + name.length)) ++ recordBytes rec) =
      (le32 SIG ++ le32 0 ++ le32 1 ++ le32 0 ++
        ((name.length % 256) :: name ++ le32 (16 + (5 + name.length)))) ++ recordBytes rec
      by simp]
    exact List.drop_left' (by simp [le32]; omega)
  have h1 : readU32 ByteOrder.little (recordBytes rec) =
      .ok (rec.dnaSize, blockTable rec.nBlocks ++
        (blockTable rec.mBlocks ++ (le32 0 ++ rec.sequence))) := by
    unfold recordBytes
    rw [List.append_assoc, List.append_assoc, List.append_assoc]
    exact readU32_le32 rec.dnaSize _ hd
  unfold parseRecord
  simp only [hlk, hdrop, h1, ok_bind,
    parseBlockCoords_blockTable rec.nBlocks _ hnb hnl,
    parseBlockCoords_blockTable rec.mBlocks _ hmb hml,
    readU32_le32 0 rec.sequence (by omega)]
  rw [if_neg (by omega)]

lemma chain'_blockGap_pairwise (B : List Block) (h : List.Chain' blockGap B) :
    List.Pairwise (fun a b => a.start + a.count ≤ b.start) B := by
  haveI : IsTrans Block blockGap :=
    ⟨fun a b c h1 h2 => by unfold blockGap at *; omega⟩
  exact (List.chain'_iff_pairwise.mp h).imp (fun hg => by unfold blockGap at hg; omega)

/-- Restoring one character: the N overlay then the masked overlay, applied
to the normalised decode of a supported base, give back the base itself. -/
lemma restore_char (c : Char) (hc : c ∈ baseAlphabet) :
    (if isMasked c = true then
        (if isN c = true then some 'N' else some (upperTN c)).map lowerChar
      else (if isN c = true then some 'N' else some (upperTN c))) = some c := by
  fin_cases hc <;> decide

/-- The heart of the full cycle: reading the whole sequence back from the
exact record `Writer.Add` builds (dnaSize, the two `mapBlocks` tables, and
the packed payload) reproduces the original sequence. -/
lemma readRangeWith_roundtrip (s : List Char) (bs : List Nat) (hne : s ≠ [])
    (hv : ∀ c ∈ s, c ∈ baseAlphabet)
    (hlen : bs.length = packedSize s.length)
    (hun : bs.flatMap unpackByte =
      s.map upperTN ++ List.replicate ((4 - s.length % 4) % 4) 'T') :
    readRangeWith ⟨s.length, mapBlocks s isN, mapBlocks s isMasked, 0, []⟩ bs 0 0 =
      .ok s := by
  have hpos : 0 < s.length := List.length_pos.mpr hne
  have hcs : clampStart 0 = 0 := rfl
  have hce : clampEnd ((s.length : Nat) : Int) 0 = (s.length : Int) := by
    unfold clampEnd
    simp only
    split_ifs <;> omega
  unfold readRangeWith
  rw [hcs, hce, if_neg (by omega)]
  have ht0 : (0 : Int).toNat = 0 := rfl
  rw [ht0, Int.toNat_natCast]
  unfold readClamped
  simp only
  have hsh : (if (0 : Nat) < 0 then
      (if (0 : Nat) % 4 ≠ 0 then packedSize 0 - 1 else packedSize 0) else 0) = 0 := rfl
  have hsz2 : (if (0 : Nat) < 0 ∧ (0 : Nat) % 4 ≠ 0 then packedSize (s.length - 0) + 1
      else packedSize (s.length - 0)) = packedSize s.length := rfl
  rw [hsh, hsz2]
  have hraw : (bs.drop 0).take (packedSize s.length) = bs := by
    rw [List.drop_zero, ← hlen, List.take_length bs]
  rw [hraw, if_neg (by omega)]
  have hseq : ((bs.flatMap unpackByte).drop (0 % 4)).take (s.length - 0) =
      s.map upperTN := by
    rw [hun, show (0 % 4 : Nat) = 0 by omega, List.drop_zero,
      show s.length - 0 = s.length by omega,
      show s.length = (s.map upperTN).length by simp, List.take_left]
  rw [hseq]
  -- the N overlay
  have hNspec := mapBlocks_runsSpec s isN
  have hMspec := mapBlocks_runsSpec s isMasked
  have huNlen : (overlayN (s.map upperTN) 0 s.length (mapBlocks s isN)).length =
      s.length := by
    rw [overlayN_length]; simp
  have huN : ∀ j, j < s.length →
      (overlayN (s.map upperTN) 0 s.length (mapBlocks s isN))[j]? =
        if covered (mapBlocks s isN) j then some 'N' else (s.map upperTN)[j]? := by
    intro j hj
    have h := overlayN_getElem (mapBlocks s isN) (s.map upperTN) 0 s.length
      (by simp) (by omega) j (by simp [hj])
    rwa [Nat.zero_add] at h
  -- the masked overlay
  obtain ⟨res, hres, hrl, hrp⟩ := overlayM_zero (mapBlocks s isMasked)
    (overlayN (s.map upperTN) 0 s.length (mapBlocks s isN))
    (by
      intro b hb
      have h := hMspec.2.2.1 b hb
      rw [huNlen]
      exact h)
    (chain'_blockGap_pairwise _ hMspec.2.1)
  rw [huNlen] at hres
  rw [hres]
  congr 1
  -- pointwise equality of the final buffer with s
  apply List.ext_getElem?
  intro j
  by_cases hj : j < s.length
  · have hsj : s[j]? = some (s.get ⟨j, hj⟩) := by
      rw [List.getElem?_eq_getElem hj]; rfl
    have hcmem : s.get ⟨j, hj⟩ ∈ s := s.get_mem j hj
    have hcN := hNspec.1 j (s.get ⟨j, hj⟩) hsj
    have hcM := hMspec.1 j (s.get ⟨j, hj⟩) hsj
    rw [hrp j, huN j hj, hsj]
    have hmap : (s.map upperTN)[j]? = some (upperTN (s.get ⟨j, hj⟩)) := by
      rw [List.getElem?_map, hsj, Option.map_some']
    rw [hmap]
    rw [if_congr hcM rfl rfl, if_congr hcN rfl rfl]
    exact restore_char (s.get ⟨j, hj⟩) (hv _ hcmem)
  · rw [List.getElem?_eq_none (by rw [hrl, huNlen]; omega),
      List.getElem?_eq_none (by omega)]

/-! ### Claim C1: the full write-then-read cycle -/

/-- C1 (amended to nonempty sequences): for every name of at most 255
bytes and every *nonempty* sequence over `{A,C,G,T,N,a,c,g,t,n}` (within
the format's `uint32` size domain), inserting it with `Writer.Add`,
serialising with `WriteTo`, constructing a Reader from the bytes and
calling `Read(name)` returns the sequence exactly — lower-case masking and
N runs included.  (The unamended claim fails for the empty sequence, see
the counterexample: `Read` maps `end = 0` to `dnaSize = 0` and then
rejects the degenerate range.) -/
theorem C1_full_cycle (name : List Nat) (s : List Char)
    (hn : name.length ≤ 255) (hne : s ≠ []) (hN : s.length < 4294967296)
    (hv : ∀ c ∈ s, c ∈ baseAlphabet) :
    (do
      let w ← Writer.Add NewWriter name s
      let r ← NewReader (WriteTo w)
      Reader.Read r name) = .ok s := by
  obtain ⟨bs, hok, hlen, hun⟩ := Pack_ok_of_valid s hv
  have hmod : s.length % 4294967296 = s.length := Nat.mod_eq_of_lt hN
  have hAdd : Writer.Add NewWriter name s =
      .ok [(name, ⟨s.length, mapBlocks s isN, mapBlocks s isMasked, 0, bs⟩)] := by
    unfold Writer.Add NewWriter
    rw [if_neg (by omega)]
    simp only [hok, ok_bind, setRecord, hmod]
  have hNspec := mapBlocks_runsSpec s isN
  have hMspec := mapBlocks_runsSpec s isMasked
  have hnb : ∀ b ∈ mapBlocks s isN, b.start < 4294967296 ∧ b.count < 4294967296 := by
    intro b hb
    have h := hNspec.2.2.1 b hb
    omega
  have hmb : ∀ b ∈ mapBlocks s isMasked, b.start < 4294967296 ∧ b.count < 4294967296 := by
    intro b hb
    have h := hMspec.2.2.1 b hb
    omega
  have hnl : (mapBlocks s isN).length < 4294967296 := by
    have := hNspec.2.2.2
    omega
  have hml : (mapBlocks s isMasked).length < 4294967296 := by
    have := hMspec.2.2.2
    omega
  simp only [hAdd, ok_bind,
    NewReader_written name ⟨s.length, mapBlocks s isN, mapBlocks s isMasked, 0, bs⟩ hn,
    ok_bind]
  unfold Reader.Read Reader.ReadRange
  simp only [parseRecord_written name
    ⟨s.length, mapBlocks s isN, mapBlocks s isMasked, 0, bs⟩ hn hN hnb hnl hmb hml]
  exact readRangeWith_roundtrip s bs hne hv hlen hun

/-- C1 counterexample: with the empty sequence — which the claim's
quantification admits — the full cycle does not return the sequence: the
whole-sequence read maps `end = 0` to `dnaSize = 0`, leaving the degenerate
range `0-0`, which `ReadRange` rejects. -/
theorem C1_full_cycle_counterexample :
    (do
      let w ← Writer.Add NewWriter [97] ([] : List Char)
      let r ← NewReader (WriteTo w)
      Reader.Read r [97]) = .error "Invalid range: 0-0" ∧
      (Except.error "Invalid range: 0-0" ≠
        (.ok ([] : List Char) : Except String (List Char))) :=
  ⟨by rfl, fun h => Except.noConfusion h⟩

theorem C1_full_cycle_witness :
    (([97] : List Nat).length ≤ 255 ∧ (['A', 'c', 'g', 'N', 'n', 'T'] : List Char) ≠ [] ∧
      (['A', 'c', 'g', 'N', 'n', 'T'] : List Char).length < 4294967296 ∧
      (∀ c ∈ (['A', 'c', 'g', 'N', 'n', 'T'] : List Char), c ∈ baseAlphabet)) ∧
      (do
        let w ← Writer.Add NewWriter [97] ['A', 'c', 'g', 'N', 'n', 'T']
        let r ← NewReader (WriteTo w)
        Reader.Read r [97]) = .ok ['A', 'c', 'g', 'N', 'n', 'T'] :=
  ⟨⟨by decide, by decide, by decide, by decide⟩,
    C1_full_cycle [97] ['A', 'c', 'g', 'N', 'n', 'T'] (by decide) (by decide)
      (by decide) (by decide)⟩

end Twobit
